import Mathlib

/-!
Verification development for the scene-chunking and media-generation
orchestrator of `app.py` (Streamlit long-form video maker).

Strings are modelled as `List Char` (Python `len` counts code points, as does
`List.length` on `List Char`).  Python `str.strip` is modelled by `trimChars`
over the ASCII whitespace characters.  Floating point quantities (timestamps,
backoff durations, crop ratios) are modelled as rationals.
-/

namespace App

/-- ASCII whitespace stripped by Python `str.strip()`. -/
def isPySpace (c : Char) : Bool :=
  c = ' ' || c = '\t' || c = '\n' || c = '\x0d' || c = '\x0b' || c = '\x0c'

/-- Model of Python `str.strip()`: drop leading and trailing whitespace. -/
def trimChars (l : List Char) : List Char :=
  ((l.dropWhile isPySpace).reverse.dropWhile isPySpace).reverse

/-- Sentence-boundary characters of `split_script_by_time`: each has a `"|"`
inserted after it before splitting on `"|"` (source lines 385-387). -/
def isBoundaryPunct (c : Char) : Bool :=
  c = '.' || c = '?' || c = '!' || c = '。' || c = '？' || c = '！' || c = '\n'

/-- The composite of the `replace` chain and `split("|")` in
`split_script_by_time` (lines 385-389): a `'|'` is a (dropped) delimiter, a
boundary punctuation character ends the current segment and is kept, other
characters extend the current segment.  The final segment is always emitted,
as Python `split` does. -/
def sentSplit : List Char → List (List Char)
  | [] => [[]]
  | c :: rest =>
    if c = '|' then [] :: sentSplit rest
    else if isBoundaryPunct c then [c] :: sentSplit rest
    else
      match sentSplit rest with
      | [] => [[c]]
      | s :: ss => (c :: s) :: ss

/-- Joining sentences with a single space, as `current_chunk += " " + sentence`
accumulates (line 400). -/
def joinSp : List (List Char) → List Char
  | [] => []
  | [s] => s
  | s :: rest => s ++ ' ' :: joinSp rest

/-- The accumulation loop of `split_script_by_time` (lines 391-412): skip
whitespace-only sentences, greedily extend the current chunk while
`len(current_chunk) + len(sentence) < chars_per_chunk`, otherwise flush the
stripped current chunk (when non-blank) and restart from the sentence. -/
def chunkLoop (B : Nat) : List (List Char) → List Char → List (List Char)
  | [], current =>
    if trimChars current = [] then [] else [trimChars current]
  | sent :: rest, current =>
    let s := trimChars sent
    if s = [] then chunkLoop B rest current
    else if current.length + s.length < B then
      if current = [] then chunkLoop B rest s
      else chunkLoop B rest (current ++ ' ' :: s)
    else
      (if trimChars current = [] then [] else [trimChars current]) ++
        chunkLoop B rest s

/-- `split_script_by_time(script, chars_per_chunk)` (lines 383-412). -/
def split_script_by_time (script : List Char) (chars_per_chunk : Nat) :
    List (List Char) :=
  chunkLoop chars_per_chunk (sentSplit script) []

/-- The stripped, non-blank sentences of the script, in input order: these are
exactly the sentences the chunk loop consumes. -/
def cleanSents (sents : List (List Char)) : List (List Char) :=
  (sents.map trimChars).filter (fun s => !s.isEmpty)

/-- Grouping companion to `chunkLoop`: records which consecutive stripped
sentences each chunk is assembled from, instead of the joined text. -/
def groupLoop (B : Nat) : List (List Char) → List (List Char) →
    List (List (List Char))
  | [], curg => if curg = [] then [] else [curg]
  | sent :: rest, curg =>
    let s := trimChars sent
    if s = [] then groupLoop B rest curg
    else if (joinSp curg).length + s.length < B then
      groupLoop B rest (curg ++ [s])
    else
      (if curg = [] then [] else [curg]) ++ groupLoop B rest [s]

/-- The sentence groups behind each chunk of `split_script_by_time`. -/
def chunkGroups (script : List Char) (chars_per_chunk : Nat) :
    List (List (List Char)) :=
  groupLoop chars_per_chunk (sentSplit script) []

/-- A list whose first and last characters (when present) are not whitespace. -/
def NoEdge (l : List Char) : Prop :=
  (∀ c, l.head? = some c → isPySpace c = false) ∧
  (∀ c, l.getLast? = some c → isPySpace c = false)

/-- A sentence that survives stripping: already stripped and non-blank. -/
def TrimmedNE (s : List Char) : Prop := trimChars s = s ∧ s ≠ []

theorem head_dropWhile_not (p : Char → Bool) :
    ∀ (l : List Char) (c : Char), (l.dropWhile p).head? = some c → p c = false := by
  intro l
  induction l with
  | nil => intro c h; simp [List.dropWhile] at h
  | cons a t ih =>
    intro c h
    by_cases hp : p a
    · rw [List.dropWhile_cons_of_pos hp] at h; exact ih c h
    · rw [List.dropWhile_cons_of_neg hp] at h
      simp at h
      subst h
      simpa using hp

theorem dropWhile_eq_self_of_head (p : Char → Bool) (l : List Char)
    (h : ∀ c, l.head? = some c → p c = false) : l.dropWhile p = l := by
  cases l with
  | nil => rfl
  | cons a t =>
    have := h a rfl
    simp [List.dropWhile, this]

theorem dropWhile_is_suffix (p : Char → Bool) :
    ∀ l : List Char, ∃ u, l = u ++ l.dropWhile p := by
  intro l
  induction l with
  | nil => exact ⟨[], rfl⟩
  | cons a t ih =>
    by_cases hp : p a
    · obtain ⟨u, hu⟩ := ih
      exact ⟨a :: u, by rw [List.dropWhile_cons_of_pos hp]; simpa using hu⟩
    · exact ⟨[], by rw [List.dropWhile_cons_of_neg hp]; rfl⟩

theorem head?_append_left {α : Type} (a b : List α) (h : a ≠ []) :
    (a ++ b).head? = a.head? := by
  cases a with
  | nil => exact absurd rfl h
  | cons x t => rfl

theorem trim_eq_self_of_noEdge (l : List Char) (h : NoEdge l) :
    trimChars l = l := by
  unfold trimChars
  rw [dropWhile_eq_self_of_head _ _ h.1]
  rw [dropWhile_eq_self_of_head _ _ (by
    intro c hc
    rw [List.head?_reverse] at hc
    exact h.2 c hc)]
  exact List.reverse_reverse l

theorem noEdge_trim (l : List Char) : NoEdge (trimChars l) := by
  unfold trimChars
  constructor
  · intro c hc
    set u := l.dropWhile isPySpace with hu
    obtain ⟨w, hw⟩ := dropWhile_is_suffix isPySpace u.reverse
    have hrev : (u.reverse.dropWhile isPySpace).reverse ++ w.reverse = u := by
      have := congrArg List.reverse hw
      simp at this
      exact this.symm
    rcases hnil : (u.reverse.dropWhile isPySpace).reverse with _ | ⟨x, t⟩
    · rw [hnil] at hc; simp at hc
    · have hhead : u.head? = some c := by
        rw [← hrev, hnil]
        rw [head?_append_left _ _ (by simp)]
        rw [hnil] at hc; exact hc
      exact head_dropWhile_not isPySpace l c (by rw [hu] at hhead; exact hhead)
  · intro c hc
    rw [List.getLast?_reverse] at hc
    exact head_dropWhile_not isPySpace _ c hc

theorem trim_nil : trimChars [] = [] := rfl

theorem trim_trim (l : List Char) : trimChars (trimChars l) = trimChars l :=
  trim_eq_self_of_noEdge _ (noEdge_trim l)

theorem trimmedNE_noEdge {s : List Char} (h : TrimmedNE s) : NoEdge s := by
  have := noEdge_trim s
  rwa [h.1] at this

theorem joinSp_cons₂ (s : List Char) (r : List (List Char)) (hr : r ≠ []) :
    joinSp (s :: r) = s ++ ' ' :: joinSp r := by
  cases r with
  | nil => exact absurd rfl hr
  | cons a t => rfl

theorem joinSp_ne_nil (g : List (List Char)) (hg : g ≠ [])
    (h : ∀ s ∈ g, s ≠ []) : joinSp g ≠ [] := by
  cases g with
  | nil => exact absurd rfl hg
  | cons s r =>
    cases r with
    | nil => exact h s (by simp)
    | cons a t => simp [joinSp_cons₂ s (a :: t) (by simp), h s (by simp)]

theorem head?_joinSp (s : List Char) (r : List (List Char)) (hs : s ≠ []) :
    (joinSp (s :: r)).head? = s.head? := by
  cases r with
  | nil => rfl
  | cons a t => rw [joinSp_cons₂ s (a :: t) (by simp), head?_append_left _ _ hs]

theorem getLast?_append_right {α : Type} (a b : List α) (h : b ≠ []) :
    (a ++ b).getLast? = b.getLast? := by
  rw [List.getLast?_append_of_ne_nil _ h]

theorem getLast?_joinSp_cons (s : List Char) (r : List (List Char)) (hr : r ≠ [])
    (hjr : joinSp r ≠ []) : (joinSp (s :: r)).getLast? = (joinSp r).getLast? := by
  rw [joinSp_cons₂ s r hr]
  have : (' ' :: joinSp r) = [' '] ++ joinSp r := rfl
  rw [this, ← List.append_assoc]
  exact getLast?_append_right _ _ hjr

theorem noEdge_joinSp (g : List (List Char)) (hg : g ≠ [])
    (h : ∀ s ∈ g, s ≠ [] ∧ NoEdge s) : NoEdge (joinSp g) := by
  induction g with
  | nil => exact absurd rfl hg
  | cons s r ih =>
    have hs := h s (by simp)
    constructor
    · intro c hc
      rw [head?_joinSp s r hs.1] at hc
      exact hs.2.1 c hc
    · intro c hc
      cases r with
      | nil => exact hs.2.2 c hc
      | cons a t =>
        have hr : (a :: t : List (List Char)) ≠ [] := by simp
        have hjr : joinSp (a :: t) ≠ [] :=
          joinSp_ne_nil _ hr (fun x hx => (h x (by simp [hx])).1)
        rw [getLast?_joinSp_cons s _ hr hjr] at hc
        have := ih hr (fun x hx => h x (by simp [hx]))
        exact this.2 c hc

theorem trim_joinSp (g : List (List Char)) (h : ∀ s ∈ g, TrimmedNE s) :
    trimChars (joinSp g) = joinSp g := by
  cases g with
  | nil => rfl
  | cons s r =>
    exact trim_eq_self_of_noEdge _ (noEdge_joinSp (s :: r) (by simp)
      (fun x hx => ⟨(h x hx).2, trimmedNE_noEdge (h x hx)⟩))

theorem joinSp_eq_nil_iff (g : List (List Char)) (h : ∀ s ∈ g, s ≠ []) :
    joinSp g = [] ↔ g = [] := by
  constructor
  · intro hj
    by_contra hg
    exact joinSp_ne_nil g hg h hj
  · intro hg; subst hg; rfl

theorem joinSp_append_single (g : List (List Char)) (s : List Char) (hg : g ≠ []) :
    joinSp (g ++ [s]) = joinSp g ++ ' ' :: s := by
  induction g with
  | nil => exact absurd rfl hg
  | cons a r ih =>
    cases r with
    | nil => rfl
    | cons b t =>
      have hr : (b :: t : List (List Char)) ≠ [] := by simp
      have h1 : (b :: t) ++ [s] ≠ [] := by simp
      rw [List.cons_append, joinSp_cons₂ a _ h1, joinSp_cons₂ a _ hr, ih hr]
      simp

theorem length_joinSp_append_single (g : List (List Char)) (s : List Char)
    (hg : g ≠ []) :
    (joinSp (g ++ [s])).length = (joinSp g).length + 1 + s.length := by
  rw [joinSp_append_single g s hg]
  simp
  omega

theorem chunkLoop_eq_groupLoop (B : Nat) (sents : List (List Char)) :
    ∀ curg : List (List Char), (∀ s ∈ curg, TrimmedNE s) →
      chunkLoop B sents (joinSp curg) = (groupLoop B sents curg).map joinSp := by
  induction sents with
  | nil =>
    intro curg hcur
    rw [chunkLoop, groupLoop, trim_joinSp curg hcur]
    by_cases hg : curg = []
    · subst hg; simp [joinSp]
    · rw [if_neg (fun hj => hg ((joinSp_eq_nil_iff curg
        (fun s hs => (hcur s hs).2)).mp hj)), if_neg hg]
      rfl
  | cons sent rest ih =>
    intro curg hcur
    rw [chunkLoop, groupLoop]
    by_cases hs : trimChars sent = []
    · rw [if_pos hs, if_pos hs]
      exact ih curg hcur
    · rw [if_neg hs, if_neg hs]
      have hsne : TrimmedNE (trimChars sent) := ⟨trim_trim sent, hs⟩
      by_cases hcond : (joinSp curg).length + (trimChars sent).length < B
      · rw [if_pos hcond, if_pos hcond]
        by_cases hg : curg = []
        · subst hg
          rw [if_pos (show joinSp ([] : List (List Char)) = [] from rfl)]
          have : joinSp ([] ++ [trimChars sent]) = trimChars sent := rfl
          rw [← this]
          exact ih [trimChars sent] (by
            intro s hsmem
            simp at hsmem
            subst hsmem
            exact hsne)
        · rw [if_neg (fun hj => hg ((joinSp_eq_nil_iff curg
            (fun s h => (hcur s h).2)).mp hj))]
          rw [show joinSp curg ++ ' ' :: trimChars sent
              = joinSp (curg ++ [trimChars sent]) from
            (joinSp_append_single curg (trimChars sent) hg).symm]
          exact ih (curg ++ [trimChars sent]) (by
            intro s hsmem
            rcases List.mem_append.mp hsmem with h | h
            · exact hcur s h
            · simp at h; subst h; exact hsne)
      · rw [if_neg hcond, if_neg hcond]
        rw [trim_joinSp curg hcur, List.map_append]
        congr 1
        · by_cases hg : curg = []
          · subst hg; simp [joinSp]
          · rw [if_neg (fun hj => hg ((joinSp_eq_nil_iff curg
              (fun s h => (hcur s h).2)).mp hj)), if_neg hg]
            rfl
        · have : joinSp [trimChars sent] = trimChars sent := rfl
          rw [← this]
          exact ih [trimChars sent] (by
            intro s hsmem
            simp at hsmem
            subst hsmem
            exact hsne)

theorem groupLoop_spec (B : Nat) (sents : List (List Char)) :
    ∀ curg : List (List Char), (∀ s ∈ curg, TrimmedNE s) →
      (curg = [] ∨ (joinSp curg).length ≤ B ∨ curg.length = 1) →
      (groupLoop B sents curg).flatten = curg ++ cleanSents sents ∧
      ∀ g ∈ groupLoop B sents curg,
        g ≠ [] ∧ (∀ s ∈ g, TrimmedNE s) ∧
          ((joinSp g).length ≤ B ∨ g.length = 1) := by
  induction sents with
  | nil =>
    intro curg hcur hinv
    rw [groupLoop]
    by_cases hg : curg = []
    · subst hg; simp [cleanSents]
    · rw [if_neg hg]
      refine ⟨by simp [cleanSents], ?_⟩
      intro g hgmem
      simp at hgmem
      subst hgmem
      refine ⟨hg, hcur, ?_⟩
      rcases hinv with h | h | h
      · exact absurd h hg
      · exact Or.inl h
      · exact Or.inr h
  | cons sent rest ih =>
    intro curg hcur hinv
    rw [groupLoop]
    have hclean : cleanSents (sent :: rest)
        = if trimChars sent = [] then cleanSents rest
          else trimChars sent :: cleanSents rest := by
      simp only [cleanSents, List.map_cons, List.filter_cons]
      by_cases h : trimChars sent = []
      · simp [h]
      · simp [h, List.isEmpty_iff]
    by_cases hs : trimChars sent = []
    · rw [if_pos hs, hclean, if_pos hs]
      exact ih curg hcur hinv
    · rw [if_neg hs, hclean, if_neg hs]
      have hsne : TrimmedNE (trimChars sent) := ⟨trim_trim sent, hs⟩
      by_cases hcond : (joinSp curg).length + (trimChars sent).length < B
      · rw [if_pos hcond]
        have hext : ∀ s ∈ curg ++ [trimChars sent], TrimmedNE s := by
          intro s hsmem
          rcases List.mem_append.mp hsmem with h | h
          · exact hcur s h
          · simp at h; subst h; exact hsne
        have hinv' : curg ++ [trimChars sent] = [] ∨
            (joinSp (curg ++ [trimChars sent])).length ≤ B ∨
            (curg ++ [trimChars sent]).length = 1 := by
          by_cases hg : curg = []
          · subst hg
            right; right; simp
          · right; left
            rw [length_joinSp_append_single curg (trimChars sent) hg]
            omega
        obtain ⟨hjoin, hall⟩ := ih (curg ++ [trimChars sent]) hext hinv'
        refine ⟨?_, hall⟩
        rw [hjoin]
        simp
      · rw [if_neg hcond]
        have hone : ∀ s ∈ [trimChars sent], TrimmedNE s := by
          intro s hsmem; simp at hsmem; subst hsmem; exact hsne
        obtain ⟨hjoin, hall⟩ := ih [trimChars sent] hone (Or.inr (Or.inr rfl))
        by_cases hg : curg = []
        · subst hg
          rw [if_pos rfl]
          refine ⟨by simpa using hjoin, by simpa using hall⟩
        · rw [if_neg hg]
          refine ⟨?_, ?_⟩
          · rw [List.flatten_append, hjoin]
            simp
          · intro g hgmem
            rcases List.mem_append.mp hgmem with h | h
            · simp at h
              subst h
              refine ⟨hg, hcur, ?_⟩
              rcases hinv with h | h | h
              · exact absurd h hg
              · exact Or.inl h
              · exact Or.inr h
            · exact hall g h

theorem split_eq_groups (script : List Char) (B : Nat) :
    split_script_by_time script B = (chunkGroups script B).map joinSp := by
  have h := chunkLoop_eq_groupLoop B (sentSplit script) [] (by simp)
  simpa [split_script_by_time, chunkGroups, joinSp] using h

theorem chunkGroups_spec (script : List Char) (B : Nat) :
    (chunkGroups script B).flatten = cleanSents (sentSplit script) ∧
    ∀ g ∈ chunkGroups script B,
      g ≠ [] ∧ (∀ s ∈ g, TrimmedNE s) ∧
        ((joinSp g).length ≤ B ∨ g.length = 1) := by
  have h := groupLoop_spec B (sentSplit script) [] (by simp) (Or.inl rfl)
  simpa [chunkGroups] using h

/-- C1: for every input text and character budget, the chunks returned by
`split_script_by_time` are never empty or whitespace-only, they partition the
stripped non-blank sentences of the input in original order (each chunk is the
space-join of one consecutive non-empty group), and a chunk longer than the
budget is necessarily a single sentence that alone exceeds the budget. -/
theorem split_script_chunks_sound (script : List Char) (B : Nat) :
    (∀ c ∈ split_script_by_time script B, trimChars c ≠ []) ∧
    (∃ gs : List (List (List Char)),
        (∀ g ∈ gs, g ≠ []) ∧
        gs.flatten = cleanSents (sentSplit script) ∧
        split_script_by_time script B = gs.map joinSp) ∧
    (∀ c ∈ split_script_by_time script B, B < c.length →
        c ∈ cleanSents (sentSplit script)) := by
  obtain ⟨hflat, hall⟩ := chunkGroups_spec script B
  have heq := split_eq_groups script B
  refine ⟨?_, ⟨chunkGroups script B, fun g hg => (hall g hg).1, hflat, heq⟩, ?_⟩
  · intro c hc
    rw [heq] at hc
    obtain ⟨g, hg, hgc⟩ := List.mem_map.mp hc
    obtain ⟨hne, htr, _⟩ := hall g hg
    rw [← hgc, trim_joinSp g htr]
    exact joinSp_ne_nil g hne (fun s hs => (htr s hs).2)
  · intro c hc hlen
    rw [heq] at hc
    obtain ⟨g, hg, hgc⟩ := List.mem_map.mp hc
    obtain ⟨hne, htr, hbound⟩ := hall g hg
    rcases hbound with h | h
    · rw [hgc] at h; omega
    · obtain ⟨s, hgs⟩ := List.length_eq_one.mp h
      subst hgs
      have : c = s := by rw [← hgc]; rfl
      subst this
      rw [← hflat]
      exact List.mem_flatten.mpr ⟨[c], hg, by simp⟩

/-- Witness for C1 at a concrete input: with budget 5, the script
`"Hello. World."` yields the single-sentence chunk `"Hello."`, which is
non-blank and, exceeding the budget, is itself one of the stripped
sentences. -/
theorem split_script_chunks_sound_witness :
    trimChars "Hello.".data ≠ [] ∧
    "Hello.".data ∈ cleanSents (sentSplit "Hello. World.".data) :=
  ⟨(split_script_chunks_sound "Hello. World.".data 5).1 "Hello.".data (by decide),
   (split_script_chunks_sound "Hello. World.".data 5).2.2 "Hello.".data
     (by decide) (by decide)⟩

/-- C10: every chunk assembled from two or more sentences has length at most
`chars_per_chunk` — the admission test `len(current_chunk) + len(sentence) <
chars_per_chunk` does not count the joining space, so the bound is attained
exactly: with budget 10, `"abc. efg#."` produces a two-sentence chunk of
length exactly 10. -/
theorem multi_sentence_chunk_exact_budget :
    (∀ (script : List Char) (B : Nat),
        split_script_by_time script B = (chunkGroups script B).map joinSp ∧
        ∀ g ∈ chunkGroups script B, 2 ≤ g.length → (joinSp g).length ≤ B) ∧
    ∃ g ∈ chunkGroups "abc. efg#.".data 10,
        2 ≤ g.length ∧ (joinSp g).length = 10 := by
  constructor
  · intro script B
    refine ⟨split_eq_groups script B, ?_⟩
    intro g hg h2
    rcases ((chunkGroups_spec script B).2 g hg).2.2 with h | h
    · exact h
    · omega
  · decide

/-- Witness for C10's universally quantified part at a concrete input. -/
theorem multi_sentence_chunk_exact_budget_witness :
    (joinSp ["abc.".data, "efg#.".data]).length ≤ 10 :=
  (multi_sentence_chunk_exact_budget.1 "abc. efg#.".data 10).2
    ["abc.".data, "efg#.".data] (by decide) (by decide)

/-! ### Zoom effect (`create_video_with_zoom`, lines 1111-1174)

The inner `effect(get_frame, t)` closure computes a crop ratio that is linear
in `t` and a centred crop rectangle; floats are modelled as rationals. -/

/-- `max_crop_ratio = 0.85` (line 1131). -/
def max_crop_ratio : ℚ := 85 / 100

/-- The visible crop ratio at time `t` (lines 1134-1138):
`progress = t / duration`; zoom-in uses `1.0 - (1.0 - max_crop_ratio) *
progress`, zoom-out uses `max_crop_ratio + (1.0 - max_crop_ratio) *
progress`. -/
def currentRatio (is_zoom_in : Bool) (t duration : ℚ) : ℚ :=
  let progress := t / duration
  if is_zoom_in then 1 - (1 - max_crop_ratio) * progress
  else max_crop_ratio + (1 - max_crop_ratio) * progress

/-- The crop rectangle `(x0, y0, x1, y1)` of the `effect` closure
(lines 1140-1146). -/
def cropRect (W H : ℚ) (is_zoom_in : Bool) (t duration : ℚ) :
    ℚ × ℚ × ℚ × ℚ :=
  let current_ratio := currentRatio is_zoom_in t duration
  let roi_w := W * current_ratio
  let roi_h := H * current_ratio
  let x0 := (W - roi_w) / 2
  let y0 := (H - roi_h) / 2
  (x0, y0, x0 + roi_w, y0 + roi_h)

/-- C4: the visible crop ratio is linear in `t`: for zoom-in it is
`1 - (1 - r) * (t/duration)`, hence `1` at `t = 0` and `r = 0.85` at
`t = duration`; for zoom-out it is `r + (1 - r) * (t/duration)`, hence `r` at
`t = 0` and `1` at `t = duration`; and the crop rectangle is centred at every
`t` (`x0 + x1 = W` and `y0 + y1 = H`). -/
theorem zoom_ratio_linear_and_centred (t duration : ℚ) (hd : duration ≠ 0)
    (W H : ℚ) :
    currentRatio true t duration = 1 - (1 - max_crop_ratio) * (t / duration) ∧
    currentRatio false t duration
      = max_crop_ratio + (1 - max_crop_ratio) * (t / duration) ∧
    currentRatio true 0 duration = 1 ∧
    currentRatio true duration duration = max_crop_ratio ∧
    currentRatio false 0 duration = max_crop_ratio ∧
    currentRatio false duration duration = 1 ∧
    (∀ zi : Bool,
      (cropRect W H zi t duration).1 + (cropRect W H zi t duration).2.2.1 = W ∧
      (cropRect W H zi t duration).2.1 + (cropRect W H zi t duration).2.2.2 = H) := by
  refine ⟨rfl, rfl, by simp [currentRatio], ?_, by simp [currentRatio], ?_, ?_⟩
  · simp [currentRatio, div_self hd]
  · simp [currentRatio, div_self hd, max_crop_ratio]
  · intro zi
    constructor <;> simp [cropRect] <;> ring

/-- Witness for C4 at `duration = 2`, `t = 1`, a 1920×1080 frame. -/
theorem zoom_ratio_linear_and_centred_witness :
    currentRatio true (1 : ℚ) 2 = 1 - (1 - max_crop_ratio) * (1 / 2) ∧
    currentRatio true 0 2 = 1 ∧
    currentRatio true 2 2 = max_crop_ratio := by
  have h := zoom_ratio_linear_and_centred 1 2 (by norm_num) 1920 1080
  exact ⟨h.1, h.2.2.1, h.2.2.2.1⟩

/-! ### Substring containment, Python's `pat in s`. -/

/-- Python's substring test `pat in hay`. -/
def strContains (hay pat : List Char) : Bool :=
  (List.range (hay.length + 1)).any (fun i => (hay.drop i).take pat.length == pat)

/-! ### Video merging (`merge_all_videos`, lines 1187-1212)

The filesystem is modelled by a predicate giving which paths exist; the
MoviePy concatenation itself is an external collaborator, so the outcome is
either the distinct no-clips result or the ordered clip list written to the
fixed output path. -/

/-- Outcome of `merge_all_videos`: either the string `"No clips to merge"`
(line 1195) or the in-order concatenation of the valid clips written to
`FINAL_FULL_VIDEO.mp4`. -/
inductive MergeOutcome where
  | noClips
  | merged (clips : List (List Char)) (outPath : List Char)
deriving DecidableEq

/-- The clip-collection loop (lines 1189-1192): keep `path` when it is truthy
(non-`None`, non-empty) and `os.path.exists(path)` holds, in input order. -/
def validClips (pathExists : List Char → Bool)
    (video_paths : List (Option (List Char))) : List (List Char) :=
  video_paths.filterMap (fun p =>
    match p with
    | some q => if !q.isEmpty && pathExists q then some q else none
    | none => none)

/-- `merge_all_videos(video_paths, output_dir)` (lines 1187-1212). -/
def merge_all_videos (pathExists : List Char → Bool)
    (video_paths : List (Option (List Char))) (output_dir : List Char) :
    MergeOutcome :=
  let clips := validClips pathExists video_paths
  if clips.isEmpty then MergeOutcome.noClips
  else MergeOutcome.merged clips (output_dir ++ "/FINAL_FULL_VIDEO.mp4".data)

theorem validClips_sublist (pathExists : List Char → Bool) :
    ∀ video_paths : List (Option (List Char)),
      (validClips pathExists video_paths).Sublist (video_paths.filterMap id) := by
  intro video_paths
  induction video_paths with
  | nil => simp [validClips]
  | cons p rest ih =>
    cases p with
    | none => exact ih
    | some q =>
      have e2 : List.filterMap id (some q :: rest) = q :: List.filterMap id rest := by
        simp
      by_cases h : (!q.isEmpty && pathExists q) = true
      · have e : validClips pathExists (some q :: rest)
            = q :: validClips pathExists rest := by
          simp only [validClips, List.filterMap_cons]
          rw [if_pos h]
        rw [e, e2]
        exact List.Sublist.cons₂ q ih
      · have e : validClips pathExists (some q :: rest)
            = validClips pathExists rest := by
          simp only [validClips, List.filterMap_cons]
          rw [if_neg h]
        rw [e, e2]
        exact List.sublist_cons_of_sublist q ih

/-- C8: with zero valid (existing) clip paths — in particular the empty
sequence — `merge_all_videos` returns the distinct no-clips result rather than
an output file, and otherwise it concatenates exactly the valid paths, in
input order (an order-preserving subsequence of the given present paths). -/
theorem merge_all_videos_spec (pathExists : List Char → Bool)
    (video_paths : List (Option (List Char))) (output_dir : List Char) :
    (merge_all_videos pathExists video_paths output_dir = MergeOutcome.noClips
      ↔ validClips pathExists video_paths = []) ∧
    merge_all_videos pathExists [] output_dir = MergeOutcome.noClips ∧
    (∀ cs out,
      merge_all_videos pathExists video_paths output_dir
          = MergeOutcome.merged cs out →
        cs = validClips pathExists video_paths ∧ cs ≠ [] ∧
        cs.Sublist (video_paths.filterMap id)) := by
  refine ⟨?_, by simp [merge_all_videos, validClips], ?_⟩
  · unfold merge_all_videos
    by_cases h : (validClips pathExists video_paths).isEmpty
    · simp only [h, if_pos rfl]
      simp [List.isEmpty_iff] at h
      simp [h]
    · simp only [Bool.not_eq_true] at h
      rw [if_neg (by simp [h])]
      constructor
      · intro hc; cases hc
      · intro hnil
        rw [hnil] at h
        simp at h
  · intro cs out hm
    unfold merge_all_videos at hm
    by_cases h : (validClips pathExists video_paths).isEmpty
    · rw [if_pos h] at hm; cases hm
    · rw [if_neg h] at hm
      injection hm with h1 h2
      subst h1
      refine ⟨rfl, ?_, validClips_sublist pathExists video_paths⟩
      intro hnil
      rw [hnil] at h
      simp at h

/-- Witness for C8: one existing path among a missing one and a `None`. -/
theorem merge_all_videos_spec_witness :
    merge_all_videos (fun p => p == "a.mp4".data)
        [some "missing.mp4".data, some "a.mp4".data, none] "out".data
      = MergeOutcome.merged ["a.mp4".data] "out/FINAL_FULL_VIDEO.mp4".data ∧
    ["a.mp4".data].Sublist
      ([some "missing.mp4".data, some "a.mp4".data, none].filterMap id) := by
  have h := (merge_all_videos_spec (fun p => p == "a.mp4".data)
    [some "missing.mp4".data, some "a.mp4".data, none] "out".data).2.2
    ["a.mp4".data] "out/FINAL_FULL_VIDEO.mp4".data (by decide)
  exact ⟨by decide, h.2.2⟩

/-! ### Image generation retry engine (`generate_image`, lines 882-954)

The Gemini client is an external collaborator: an oracle maps each attempt
number (1-based) to either a response whose parts may carry inline image
data, or a raised exception message.  `random.uniform(1, 3)` is an oracle
giving the jitter drawn at each attempt.  The run records the returned value,
the files written, the sleeps performed and the number of service calls. -/

/-- One part of a Gemini response: carries `inline_data` or not. -/
inductive Part where
  | inline (data : List Char)
  | other
deriving DecidableEq

/-- Outcome of one `client.models.generate_content` call. -/
inductive ApiResponse where
  | parts (ps : List Part)
  | exn (msg : List Char)

/-- Observable behaviour of one `generate_image` invocation. -/
structure ImgRun where
  result : Option (List Char)
  writes : List (List Char × List Char)
  sleeps : List ℚ
  calls : Nat
deriving DecidableEq

/-- The `for part in response.parts: if part.inline_data:` scan
(lines 924-929): first part carrying inline data. -/
def firstInline : List Part → Option (List Char)
  | [] => none
  | Part.inline d :: _ => some d
  | Part.other :: rest => firstInline rest

/-- The rate-limit classifier (line 941):
`"429" in error_msg or "ResourceExhausted" in error_msg`. -/
def isRateLimitMsg (m : List Char) : Bool :=
  strContains m "429".data || strContains m "ResourceExhausted".data

/-- The backoff chosen for an exception at a given attempt (lines 941-950):
rate-limit errors wait `(5 * attempt) + random.uniform(1, 3)` seconds, any
other error waits a fixed 5 seconds. -/
def backoffWait (attempt : Nat) (jit : ℚ) (msg : List Char) : ℚ :=
  if isRateLimitMsg msg then 5 * attempt + jit else 5

/-- Initial `last_error_msg` (line 889). -/
def unknownErrMsg : List Char := "알 수 없는 오류".data

/-- `last_error_msg` set when a response carries no image (line 932). -/
def noImageMsg : List Char := "이미지 데이터 없음 (Blocked by Safety Filter?)".data

/-- The retry loop `for attempt in range(1, max_retries + 1)`
(lines 911-954), recursing on remaining attempts: a response with inline data
is saved to `full_path` and the path returned; a response without image data
sleeps 2 seconds and retries with the no-image message; an exception sleeps
`backoffWait` and retries remembering the message; once attempts are
exhausted the tagged `"ERROR_DETAILS: "` failure string is returned. -/
def genImgGo (resp : Nat → ApiResponse) (jitter : Nat → ℚ)
    (full_path : List Char) : Nat → Nat → List Char → ImgRun
  | 0, _, lastErr =>
    { result := some ("ERROR_DETAILS: ".data ++ lastErr)
      writes := [], sleeps := [], calls := 0 }
  | remaining + 1, attempt, lastErr =>
    match resp attempt with
    | ApiResponse.parts ps =>
      match firstInline ps with
      | some d =>
        { result := some full_path, writes := [(full_path, d)]
          sleeps := [], calls := 1 }
      | none =>
        let r := genImgGo resp jitter full_path remaining (attempt + 1) noImageMsg
        { r with sleeps := 2 :: r.sleeps, calls := r.calls + 1 }
    | ApiResponse.exn m =>
      let r := genImgGo resp jitter full_path remaining (attempt + 1) m
      { r with sleeps := backoffWait attempt (jitter attempt) m :: r.sleeps
               calls := r.calls + 1 }

/-- `generate_image` with its fixed `max_retries = 5` (line 886), starting at
attempt 1 with the unknown-error message. -/
def generate_image (resp : Nat → ApiResponse) (jitter : Nat → ℚ)
    (full_path : List Char) : ImgRun :=
  genImgGo resp jitter full_path 5 1 unknownErrMsg

/-- C2: when every attempt raises a rate-limit-class error, `generate_image`
makes exactly its budget of 5 service calls, returns the tagged
`"ERROR_DETAILS: "` string carrying the message of the 5th (last) error —
never `None` — and writes no image file. -/
theorem generate_image_ratelimit_exhaustion (resp : Nat → ApiResponse)
    (jitter : Nat → ℚ) (full_path : List Char) (msgs : Nat → List Char)
    (hresp : ∀ a, resp a = ApiResponse.exn (msgs a))
    (hrl : ∀ a, isRateLimitMsg (msgs a) = true) :
    (generate_image resp jitter full_path).result
        = some ("ERROR_DETAILS: ".data ++ msgs 5) ∧
    (generate_image resp jitter full_path).writes = [] ∧
    (generate_image resp jitter full_path).calls = 5 ∧
    (generate_image resp jitter full_path).result ≠ none := by
  have e1 := hresp 1
  have e2 := hresp 2
  have e3 := hresp 3
  have e4 := hresp 4
  have e5 := hresp 5
  refine ⟨?_, ?_, ?_, ?_⟩ <;>
    simp [generate_image, genImgGo, e1, e2, e3, e4, e5]

/-- Witness for C2: a constant 429 error oracle. -/
theorem generate_image_ratelimit_exhaustion_witness :
    (generate_image (fun _ => ApiResponse.exn "429 quota exceeded".data)
        (fun _ => 2) "out.png".data).result
      = some ("ERROR_DETAILS: ".data ++ "429 quota exceeded".data) ∧
    (generate_image (fun _ => ApiResponse.exn "429 quota exceeded".data)
        (fun _ => 2) "out.png".data).calls = 5 := by
  have hc : isRateLimitMsg "429 quota exceeded".data = true := by decide
  have h := generate_image_ratelimit_exhaustion
    (fun _ => ApiResponse.exn "429 quota exceeded".data) (fun _ => 2)
    "out.png".data (fun _ => "429 quota exceeded".data)
    (fun _ => rfl) (fun _ => hc)
  exact ⟨h.1, h.2.2.1⟩

/-- C9: with jitter drawn from `[1, 3]`, the backoff used by
`generate_image` for a rate-limit-class error at attempt `a` is exactly
`5 * a + jitter` — strictly growing in the attempt number and, for every
`a ≥ 1`, strictly larger than the fixed 5-second wait used for every other
transient error; moreover the sleep recorded by the retry loop for an
exception at attempt `a` is precisely this `backoffWait`. -/
theorem rate_limit_backoff_policy (jitter : Nat → ℚ)
    (hj : ∀ a, 1 ≤ jitter a ∧ jitter a ≤ 3) (msg : List Char) :
    (isRateLimitMsg msg = true →
      (∀ a : Nat, backoffWait a (jitter a) msg = 5 * a + jitter a) ∧
      (∀ a : Nat,
        backoffWait a (jitter a) msg < backoffWait (a + 1) (jitter (a + 1)) msg) ∧
      (∀ a : Nat, 1 ≤ a → (5 : ℚ) < backoffWait a (jitter a) msg)) ∧
    (isRateLimitMsg msg = false → ∀ a jit, backoffWait a jit msg = 5) ∧
    (∀ (resp : Nat → ApiResponse) (full_path lastErr m : List Char)
        (remaining attempt : Nat), resp attempt = ApiResponse.exn m →
      (genImgGo resp jitter full_path (remaining + 1) attempt lastErr).sleeps.head?
        = some (backoffWait attempt (jitter attempt) m)) := by
  refine ⟨?_, ?_, ?_⟩
  · intro hrl
    refine ⟨fun a => by simp [backoffWait, hrl], ?_, ?_⟩
    · intro a
      simp only [backoffWait, hrl, if_pos]
      have h1 := (hj a).2
      have h2 := (hj (a + 1)).1
      push_cast
      linarith
    · intro a ha
      simp only [backoffWait, hrl, if_pos]
      have h1 := (hj a).1
      have : (1 : ℚ) ≤ (a : ℚ) := by exact_mod_cast ha
      linarith
  · intro hrl a jit
    simp [backoffWait, hrl]
  · intro resp full_path lastErr m remaining attempt h
    simp [genImgGo, h]

/-- Witness for C9 with constant jitter 2 and the message `"429"`. -/
theorem rate_limit_backoff_policy_witness :
    backoffWait 1 2 "429".data = 5 * (1 : ℚ) + 2 ∧
    (5 : ℚ) < backoffWait 1 2 "429".data := by
  have h := rate_limit_backoff_policy (fun _ => 2)
    (fun _ => by norm_num) "429".data
  have h1 := (h.1 (by decide)).1 1
  have h3 := (h.1 (by decide)).2.2 1 le_rfl
  exact ⟨by simpa using h1, h3⟩

/-! ### TTS text normalisation (`num_to_kor` lines 203-240,
`normalize_text_for_tts` lines 242-259)

`num_to_kor` is modelled digit-wise: Python converts the comma-stripped
string through `int` and then peels 4-digit myriad groups; on the digit list
this is grouping the (leading-zero-free) decimal digits in fours from the
right.  The two `re.sub` calls are modelled as left-to-right scanners with
the states of the respective regex (`(\d+)\.(\d+)` and `\d+(?:,\d+)*`),
matching leftmost and greedily exactly as `re.sub` does.  `\d` is modelled as
the ASCII digits. -/

/-- ASCII decimal digit (`\d` on the inputs of interest). -/
def isDigitCh (c : Char) : Bool := '0' ≤ c && c ≤ '9'

/-- `units = ['', '십', '백', '천']` (line 212). -/
def korUnits : List (List Char) := [[], "십".data, "백".data, "천".data]

/-- `big_units = ['', '만', '억', '조', '경']` (line 213). -/
def korBigUnits : List (List Char) :=
  [[], "만".data, "억".data, "조".data, "경".data]

/-- `num_chars = ['', '일', ..., '구']` (line 214). -/
def korNumChars : List (List Char) :=
  [[], "일".data, "이".data, "삼".data, "사".data, "오".data, "육".data,
    "칠".data, "팔".data, "구".data]

/-- The inner digit loop of `num_to_kor` (lines 224-233) on one myriad group,
least-significant digit first: each non-zero digit contributes its name (the
name is dropped for a leading `1` on a non-unit position) plus its place
unit, assembled most-significant first. -/
def smallKorAux : List Nat → Nat → List Char
  | [], _ => []
  | d :: rest, idx =>
    smallKorAux rest (idx + 1) ++
      (if d > 0 then
        (if d = 1 && idx > 0 then [] else korNumChars.getD d []) ++
          korUnits.getD idx []
      else [])

/-- The outer myriad loop of `num_to_kor` (lines 219-236), groups
least-significant first: each group with a non-zero value contributes its
rendering plus the myriad unit. -/
def bigKorAux : List (List Nat) → Nat → List Char
  | [], _ => []
  | g :: rest, bigIdx =>
    bigKorAux rest (bigIdx + 1) ++
      (if g.any (fun d => d > 0) then
        smallKorAux g 0 ++ korBigUnits.getD bigIdx []
      else [])

/-- Split a least-significant-first digit list into myriad groups of four. -/
def chunk4 : List Nat → List (List Nat)
  | [] => []
  | a :: b :: c :: d :: rest => [a, b, c, d] :: chunk4 rest
  | l => [l]

/-- `num_to_kor(num_str)` (lines 203-240): strip commas; if the result is not
a non-empty digit string return it unchanged; render `0` as `영`; numbers of
21 or more significant digits overflow `big_units` and the raised
`IndexError` is caught, returning the stripped string; otherwise render the
myriad groups. -/
def num_to_kor (s : List Char) : List Char :=
  let stripped := s.filter (fun c => !(c == ','))
  if stripped.isEmpty || !(stripped.all isDigitCh) then stripped
  else
    let digits := (stripped.map (fun c => c.toNat - 48)).dropWhile (fun d => d == 0)
    if digits.isEmpty then "영".data
    else if 21 ≤ digits.length then stripped
    else bigKorAux (chunk4 digits.reverse) 0

/-- Scanner state of `re.sub(r'(\d+)\.(\d+)', ...)` (lines 250-252). -/
inductive DecState where
  | idle
  | inInt (run : List Char)
  | seenDot (run : List Char)
  | inFrac (run frac : List Char)

/-- Text emitted for a pending decimal-scanner state at end of input: a
completed match becomes `group1 ++ " 점 " ++ group2`. -/
def decFlush : DecState → List Char
  | DecState.idle => []
  | DecState.inInt run => run
  | DecState.seenDot run => run ++ ['.']
  | DecState.inFrac run frac => run ++ " 점 ".data ++ frac

/-- Left-to-right scan of `re.sub(r'(\d+)\.(\d+)', g1 + " 점 " + g2, text)`:
greedy digit runs around a single dot, leftmost matches replaced, everything
else copied. -/
def subDecimalGo : DecState → List Char → List Char
  | st, [] => decFlush st
  | st, c :: rest =>
    match st with
    | DecState.idle =>
      if isDigitCh c then subDecimalGo (DecState.inInt [c]) rest
      else c :: subDecimalGo DecState.idle rest
    | DecState.inInt run =>
      if isDigitCh c then subDecimalGo (DecState.inInt (run ++ [c])) rest
      else if c = '.' then subDecimalGo (DecState.seenDot run) rest
      else run ++ c :: subDecimalGo DecState.idle rest
    | DecState.seenDot run =>
      if isDigitCh c then subDecimalGo (DecState.inFrac run [c]) rest
      else run ++ '.' :: c :: subDecimalGo DecState.idle rest
    | DecState.inFrac run frac =>
      if isDigitCh c then subDecimalGo (DecState.inFrac run (frac ++ [c])) rest
      else run ++ " 점 ".data ++ frac ++ c :: subDecimalGo DecState.idle rest

/-- The decimal-point substitution of `normalize_text_for_tts`. -/
def subDecimal (l : List Char) : List Char := subDecimalGo DecState.idle l

/-- Scanner state of `re.sub(r'\d+(?:,\d+)*', ...)` (lines 254-257). -/
inductive NumState where
  | idle
  | inNum (run : List Char)
  | afterComma (run : List Char)

/-- Text emitted for a pending number-scanner state at end of input: a
matched numeral is replaced by `num_to_kor` of its text. -/
def numFlush : NumState → List Char
  | NumState.idle => []
  | NumState.inNum run => num_to_kor run
  | NumState.afterComma run => num_to_kor run ++ [',']

/-- Left-to-right scan of `re.sub(r'\d+(?:,\d+)*', num_to_kor, text)`:
greedy digit runs optionally continued by comma-digit groups, leftmost
matches replaced by their Korean reading. -/
def subNumberGo : NumState → List Char → List Char
  | st, [] => numFlush st
  | st, c :: rest =>
    match st with
    | NumState.idle =>
      if isDigitCh c then subNumberGo (NumState.inNum [c]) rest
      else c :: subNumberGo NumState.idle rest
    | NumState.inNum run =>
      if isDigitCh c then subNumberGo (NumState.inNum (run ++ [c])) rest
      else if c = ',' then subNumberGo (NumState.afterComma run) rest
      else num_to_kor run ++ c :: subNumberGo NumState.idle rest
    | NumState.afterComma run =>
      if isDigitCh c then subNumberGo (NumState.inNum (run ++ [','] ++ [c])) rest
      else num_to_kor run ++ ',' :: c :: subNumberGo NumState.idle rest

/-- The numeral substitution of `normalize_text_for_tts`. -/
def subNumber (l : List Char) : List Char := subNumberGo NumState.idle l

/-- `text.replace("%", " 퍼센트")` (line 248). -/
def replacePercent : List Char → List Char
  | [] => []
  | c :: rest =>
    if c = '%' then ' ' :: "퍼센트".data ++ replacePercent rest
    else c :: replacePercent rest

/-- The Japanese-kana detector (line 245): any character in the code-point
range U+3040 to U+30FF. -/
def hasJapaneseKana (s : List Char) : Bool :=
  s.any (fun c => '぀' ≤ c && c ≤ 'ヿ')

/-- `normalize_text_for_tts(text)` (lines 242-259): skip normalisation
entirely for text containing Japanese kana, else replace `%`, verbalise
decimals, then verbalise numerals. -/
def normalize_text_for_tts (text : List Char) : List Char :=
  if hasJapaneseKana text then text
  else subNumber (subDecimal (replacePercent text))

/-- The digit-by-digit fractional reading claimed by the spec for `"3.14"`
(the "three point one four" pattern): each fractional digit read alone. -/
def digitByDigitPi : List Char := "삼 점 일사".data

/-- C7 counterexample: `normalize_text_for_tts` reads the fractional part of
`"3.14"` as the whole number fourteen (`십사`), not digit by digit (`일사`),
so the "three point one four" part of the claim fails on the code. -/
theorem normalize_decimal_counterexample :
    normalize_text_for_tts "3.14".data = "삼 점 십사".data ∧
    normalize_text_for_tts "3.14".data ≠ digitByDigitPi := by
  constructor
  · rfl
  · intro h
    exact absurd (h.symm.trans rfl) (by decide)

/-- C7 amended: `"1,500"` is verbalised by 4-digit myriad grouping as
`천오백`, `"50%"` becomes `오십 퍼센트`, and `"3.14"` becomes `삼 점 십사` —
the decimal-point word is inserted but the fractional digits are read as one
number, not digit by digit. -/
theorem normalize_numerals_amended :
    normalize_text_for_tts "1,500".data = "천오백".data ∧
    normalize_text_for_tts "3.14".data = "삼 점 십사".data ∧
    normalize_text_for_tts "50%".data = "오십 퍼센트".data := by
  refine ⟨rfl, rfl, rfl⟩

/-! ### TTS request text (`generate_supertone_tts`, lines 1000-1033)

Lines 1004, 1007 and 1017: normalise, strip, unconditionally append one
period, then truncate to 500 characters; the result is the `text` field of
the single TTS request payload. -/

/-- The text `generate_supertone_tts` sends to the service:
`normalize_text_for_tts(text).strip() + "."`, truncated to 500 characters. -/
def supertoneSafeText (text : List Char) : List Char :=
  (trimChars (normalize_text_for_tts text) ++ ['.']).take 500

/-- Terminal punctuation marks (the sentence-ending set used throughout the
source). -/
def isTerminalPunct (c : Char) : Bool :=
  c = '.' || c = '?' || c = '!' || c = '。' || c = '？' || c = '！'

/-- Whether a string ends with exactly one terminal punctuation mark. -/
def endsWithExactlyOneTerminal (s : List Char) : Bool :=
  match s.reverse with
  | [] => false
  | [c] => isTerminalPunct c
  | c :: c2 :: _ => isTerminalPunct c && !(isTerminalPunct c2)

/-- C6 counterexample: the period is appended unconditionally (line 1007:
a period is added whether one is present or not), so input `"가."` is sent as
`"가.."`, which ends with two terminal punctuation marks, not exactly one. -/
theorem supertone_exactly_one_counterexample :
    supertoneSafeText "가.".data = "가..".data ∧
    endsWithExactlyOneTerminal (supertoneSafeText "가.".data) = false := by
  exact ⟨rfl, rfl⟩

/-- C6 amended: the sent text is the stripped normalised narration with
exactly one period unconditionally appended (so text already ending in
terminal punctuation is sent with a doubled mark), then truncated to the
service maximum of 500 characters; whenever the stripped normalised text is
shorter than 500 characters the appended period survives truncation and the
sent text ends with a period. -/
theorem supertone_send_text_amended (text : List Char) :
    (supertoneSafeText text).length ≤ 500 ∧
    ((trimChars (normalize_text_for_tts text)).length < 500 →
      supertoneSafeText text = trimChars (normalize_text_for_tts text) ++ ['.'] ∧
      (supertoneSafeText text).getLast? = some '.') := by
  constructor
  · simp [supertoneSafeText]
  · intro h
    have hfull : (trimChars (normalize_text_for_tts text) ++ ['.']).length ≤ 500 := by
      simp
      omega
    have e : supertoneSafeText text
        = trimChars (normalize_text_for_tts text) ++ ['.'] := by
      unfold supertoneSafeText
      exact List.take_of_length_le hfull
    refine ⟨e, ?_⟩
    rw [e]
    exact List.getLast?_concat _

/-- Witness for C6's amended theorem at the input `"가"`. -/
theorem supertone_send_text_amended_witness :
    supertoneSafeText "가".data
      = trimChars (normalize_text_for_tts "가".data) ++ ['.'] :=
  ((supertone_send_text_amended "가".data).2 (by decide)).1

/-! ### Scene artifact state and invalidation (lines 1949-1957, 2022-2032,
2160-2169)

The per-scene dictionary stored in `generated_results`. -/

/-- One entry of `st.session_state['generated_results']` (lines 1949-1957). -/
structure Scene where
  scene : Nat
  path : List Char
  filename : List Char
  script : List Char
  prompt : List Char
  audio_path : Option (List Char)
  video_path : Option (List Char)
deriving DecidableEq

/-- The success test of the per-scene image-regeneration handler (line 2161):
`new_path and "ERROR_DETAILS" not in new_path`. -/
def regenImgSucceeds (new_path : List Char) : Bool :=
  !new_path.isEmpty && !strContains new_path "ERROR_DETAILS".data

/-- The per-scene image-regeneration button handler's state update
(lines 2160-2169): on success it stores the new image path and the freshly
generated prompt and clears `video_path`; on failure it changes nothing. -/
def regenImgHandler (item : Scene) (new_prompt new_path : List Char) : Scene :=
  if regenImgSucceeds new_path then
    { item with path := new_path, prompt := new_prompt, video_path := none }
  else item

/-- The success test of the TTS batch `as_completed` handler (line 2026):
`"Error" not in str(result_path) and "VOICE_NOT_FOUND" not in
str(result_path)`. -/
def ttsResultOk (result_path : List Char) : Bool :=
  !strContains result_path "Error".data &&
    !strContains result_path "VOICE_NOT_FOUND".data

/-- The TTS batch `as_completed` handler's state update (lines 2022-2032):
on success it stores the new audio path and clears `video_path`; on failure
it changes nothing. -/
def ttsBatchHandler (item : Scene) (result_path : List Char) : Scene :=
  if ttsResultOk result_path then
    { item with audio_path := some result_path, video_path := none }
  else item

/-- C3 counterexample: the claim that on a successful image regeneration no
Scene field other than `image_path` and `video_path` changes is false — the
handler also replaces the scene's `prompt` (line 2164). -/
theorem scene_invalidation_counterexample :
    ¬ (∀ (item : Scene) (new_prompt new_path : List Char),
        regenImgSucceeds new_path = true →
          (regenImgHandler item new_prompt new_path).video_path = none ∧
          (regenImgHandler item new_prompt new_path).audio_path
            = item.audio_path ∧
          (regenImgHandler item new_prompt new_path).prompt = item.prompt) := by
  intro h
  have hc := (h ⟨1, "img.png".data, "f".data, "s".data, "old prompt".data,
    none, none⟩ "new prompt".data "img2.png".data (by decide)).2.2
  exact absurd hc (by decide)

/-- C3 amended: a successful image regeneration clears `video_path`, leaves
`audio_path`, `script`, `scene` and `filename` unchanged, and replaces both
`path` and the regenerated `prompt`; a successful TTS result clears
`video_path`, stores the new `audio_path` and changes nothing else; a failed
result leaves the scene untouched in both handlers. -/
theorem scene_invalidation_amended (item : Scene)
    (new_prompt new_path result_path : List Char) :
    (regenImgSucceeds new_path = true →
      (regenImgHandler item new_prompt new_path).video_path = none ∧
      (regenImgHandler item new_prompt new_path).audio_path = item.audio_path ∧
      (regenImgHandler item new_prompt new_path).path = new_path ∧
      (regenImgHandler item new_prompt new_path).prompt = new_prompt ∧
      (regenImgHandler item new_prompt new_path).script = item.script ∧
      (regenImgHandler item new_prompt new_path).scene = item.scene ∧
      (regenImgHandler item new_prompt new_path).filename = item.filename) ∧
    (regenImgSucceeds new_path = false →
      regenImgHandler item new_prompt new_path = item) ∧
    (ttsResultOk result_path = true →
      (ttsBatchHandler item result_path).video_path = none ∧
      (ttsBatchHandler item result_path).audio_path = some result_path ∧
      (ttsBatchHandler item result_path).path = item.path ∧
      (ttsBatchHandler item result_path).prompt = item.prompt ∧
      (ttsBatchHandler item result_path).script = item.script ∧
      (ttsBatchHandler item result_path).scene = item.scene ∧
      (ttsBatchHandler item result_path).filename = item.filename) ∧
    (ttsResultOk result_path = false →
      ttsBatchHandler item result_path = item) := by
  refine ⟨fun h => ?_, fun h => ?_, fun h => ?_, fun h => ?_⟩ <;>
    simp [regenImgHandler, ttsBatchHandler, h]

/-- Witness for C3's amended theorem on a concrete scene. -/
theorem scene_invalidation_amended_witness :
    (regenImgHandler ⟨1, "img.png".data, "f".data, "s".data, "p".data,
        some "a.wav".data, some "v.mp4".data⟩ "np".data "img2.png".data).video_path
      = none ∧
    (ttsBatchHandler ⟨1, "img.png".data, "f".data, "s".data, "p".data,
        some "a.wav".data, some "v.mp4".data⟩ "a2.wav".data).video_path
      = none := by
  have h := scene_invalidation_amended
    ⟨1, "img.png".data, "f".data, "s".data, "p".data,
      some "a.wav".data, some "v.mp4".data⟩
    "np".data "img2.png".data "a2.wav".data
  exact ⟨(h.1 (by decide)).1, (h.2.2.1 (by decide)).1⟩

/-! ### Silence compaction (`smart_shorten_silence`, lines 1068-1097)

Audio is modelled as one loudness sample per millisecond, a `WithBot ℤ`
(dBFS level), with `⊥` the digital silence produced by
`AudioSegment.silent`, which lies below every threshold.  The pydub library
call `detect_silence(audio, min_silence_len, silence_thresh)` is not part of
this repository; it is modelled by its documented contract: the `[start,
end]` ranges of the maximal runs of below-threshold samples whose length is
at least `min_silence_len`, in order.  The rewrite loop (lines 1080-1093) is
translated exactly: copy up to each range, emit `AudioSegment.silent` of the
cap duration when the range exceeds the cap and the original slice
otherwise, then copy the tail. -/

/-- One millisecond of audio: its loudness, `⊥` for digital silence. -/
abbrev Sample := WithBot ℤ

/-- A sample at or below the silence threshold. -/
def isSilent (thresh : ℤ) (x : Sample) : Bool := decide (x ≤ (thresh : WithBot ℤ))

/-- Silence status of a block, read off its first sample. -/
def headSt (t : ℤ) (b : List Sample) : Bool := isSilent t b.headI

/-- Decompose audio into its maximal runs of constant silence status. -/
def toBlocks (t : ℤ) : List Sample → List (List Sample)
  | [] => []
  | x :: xs =>
    match toBlocks t xs with
    | [] => [[x]]
    | b :: bs =>
      if isSilent t x = headSt t b then (x :: b) :: bs
      else [x] :: b :: bs

/-- The `[start, end]` index ranges of the silent blocks of a block list
starting at a given position. -/
def blockRanges (t : ℤ) : List (List Sample) → Nat → List (Nat × Nat)
  | [], _ => []
  | b :: bs, pos =>
    if b.all (isSilent t) then
      (pos, pos + b.length) :: blockRanges t bs (pos + b.length)
    else blockRanges t bs (pos + b.length)

/-- Modelled from pydub's documented contract: all maximal silent intervals
of length at least `min_silence_len`, as `[start, end]` millisecond ranges in
order. -/
def detect_silence (audio : List Sample) (min_silence_len : Nat) (thresh : ℤ) :
    List (Nat × Nat) :=
  (blockRanges thresh (toBlocks thresh audio) 0).filter
    (fun r => min_silence_len ≤ r.2 - r.1)

/-- The reconstruction loop of `smart_shorten_silence` (lines 1080-1092):
`output += audio[last_pos:start]`, then either `AudioSegment.silent(cap)` when
the silence exceeds the cap or the original `audio[start:end]`, finally the
tail `audio[last_pos:]`. -/
def rebuild (audio : List Sample) (cap : Nat) :
    List (Nat × Nat) → Nat → List Sample
  | [], last => audio.drop last
  | (s, e) :: rs, last =>
    ((audio.drop last).take (s - last)) ++
      (if cap < e - s then List.replicate cap (⊥ : Sample)
       else (audio.drop s).take (e - s)) ++
      rebuild audio cap rs e

/-- `smart_shorten_silence(file, max_allowed_silence_ms, min_silence_len,
silence_thresh)` (lines 1068-1097), as the audio content of the file after
the call: unchanged when no silence interval is detected (line 1077),
otherwise the reconstruction. -/
def smart_shorten_silence (audio : List Sample)
    (max_allowed_silence_ms min_silence_len : Nat) (silence_thresh : ℤ) :
    List Sample :=
  let silence_ranges := detect_silence audio min_silence_len silence_thresh
  if silence_ranges.isEmpty then audio
  else rebuild audio max_allowed_silence_ms silence_ranges 0

/-- The per-block effect of one `smart_shorten_silence` pass: a detected
over-cap silent block becomes `cap` digital-silence samples, everything else
is preserved. -/
def truncBlock (cap minLen : Nat) (t : ℤ) (b : List Sample) : List Sample :=
  if b.all (isSilent t) = true ∧ minLen ≤ b.length ∧ cap < b.length then
    List.replicate cap (⊥ : Sample)
  else b

/-- A block whose samples all share the status of its head. -/
def Uniform (t : ℤ) (b : List Sample) : Prop :=
  ∀ x ∈ b, isSilent t x = headSt t b

/-- A list of non-empty uniform blocks with alternating silence status. -/
def AltBlocks (t : ℤ) (bs : List (List Sample)) : Prop :=
  (∀ b ∈ bs, b ≠ [] ∧ Uniform t b) ∧
  List.Chain' (fun b c => headSt t b ≠ headSt t c) bs

theorem isSilent_bot (t : ℤ) : isSilent t (⊥ : Sample) = true := by
  simp [isSilent]

theorem toBlocks_nil (t : ℤ) : toBlocks t [] = [] := rfl

theorem toBlocks_cons_eq (t : ℤ) (x : Sample) (xs : List Sample) :
    toBlocks t (x :: xs)
      = match toBlocks t xs with
        | [] => [[x]]
        | b :: bs =>
          if isSilent t x = headSt t b then (x :: b) :: bs
          else [x] :: b :: bs := rfl

theorem toBlocks_cons_of_nil (t : ℤ) (x : Sample) (xs : List Sample)
    (h : toBlocks t xs = []) : toBlocks t (x :: xs) = [[x]] := by
  rw [toBlocks_cons_eq, h]

theorem toBlocks_cons_of_pos (t : ℤ) (x : Sample) (xs b : List Sample)
    (bs : List (List Sample)) (h : toBlocks t xs = b :: bs)
    (hst : isSilent t x = headSt t b) :
    toBlocks t (x :: xs) = (x :: b) :: bs := by
  rw [toBlocks_cons_eq, h]
  show (if isSilent t x = headSt t b then (x :: b) :: bs
        else [x] :: b :: bs) = (x :: b) :: bs
  rw [if_pos hst]

theorem toBlocks_cons_of_neg (t : ℤ) (x : Sample) (xs b : List Sample)
    (bs : List (List Sample)) (h : toBlocks t xs = b :: bs)
    (hst : ¬ isSilent t x = headSt t b) :
    toBlocks t (x :: xs) = [x] :: b :: bs := by
  rw [toBlocks_cons_eq, h]
  show (if isSilent t x = headSt t b then (x :: b) :: bs
        else [x] :: b :: bs) = [x] :: b :: bs
  rw [if_neg hst]

theorem toBlocks_flatten (t : ℤ) :
    ∀ a : List Sample, (toBlocks t a).flatten = a := by
  intro a
  induction a with
  | nil => rfl
  | cons x xs ih =>
    rcases h : toBlocks t xs with _ | ⟨b, bs⟩
    · rw [toBlocks_cons_of_nil t x xs h]
      rw [h] at ih
      simp at ih
      simp [ih]
    · rw [h] at ih
      by_cases hst : isSilent t x = headSt t b
      · rw [toBlocks_cons_of_pos t x xs b bs h hst]
        simpa using ih
      · rw [toBlocks_cons_of_neg t x xs b bs h hst]
        simpa using ih

theorem toBlocks_eq_nil_iff (t : ℤ) (a : List Sample) :
    toBlocks t a = [] ↔ a = [] := by
  constructor
  · intro h
    have := toBlocks_flatten t a
    rw [h] at this
    simpa using this.symm
  · intro h; subst h; rfl

theorem toBlocks_head (t : ℤ) (x : Sample) (xs : List Sample) :
    ∃ b bs, toBlocks t (x :: xs) = (x :: b) :: bs := by
  rcases h : toBlocks t xs with _ | ⟨b, bs⟩
  · exact ⟨[], [], toBlocks_cons_of_nil t x xs h⟩
  · by_cases hst : isSilent t x = headSt t b
    · exact ⟨b, bs, toBlocks_cons_of_pos t x xs b bs h hst⟩
    · exact ⟨[], b :: bs, toBlocks_cons_of_neg t x xs b bs h hst⟩

theorem toBlocks_alt (t : ℤ) : ∀ a : List Sample, AltBlocks t (toBlocks t a) := by
  intro a
  induction a with
  | nil => exact ⟨by simp [toBlocks_nil], by simp [toBlocks_nil]⟩
  | cons x xs ih =>
    obtain ⟨hmem, hchain⟩ := ih
    rcases h : toBlocks t xs with _ | ⟨b, bs⟩
    · rw [toBlocks_cons_of_nil t x xs h]
      refine ⟨?_, ?_⟩
      · intro c hc
        simp at hc
        subst hc
        exact ⟨by simp, by intro y hy; simp at hy; subst hy; rfl⟩
      · simp
    · rw [h] at hmem hchain
      by_cases hst : isSilent t x = headSt t b
      · rw [toBlocks_cons_of_pos t x xs b bs h hst]
        have hb := hmem b (by simp)
        refine ⟨?_, ?_⟩
        · intro c hc
          rcases List.mem_cons.mp hc with hc | hc
          · subst hc
            refine ⟨by simp, ?_⟩
            intro y hy
            have hhd : headSt t (x :: b) = isSilent t x := rfl
            rcases List.mem_cons.mp hy with hy | hy
            · subst hy; rw [hhd]
            · rw [hhd, hst]
              exact hb.2 y hy
          · exact hmem c (by simp [hc])
        · have hhd : headSt t (x :: b) = isSilent t x := rfl
          rcases bs with _ | ⟨c, cs⟩
          · simp
          · rw [List.chain'_cons] at hchain ⊢
            refine ⟨?_, hchain.2⟩
            rw [hhd, hst]
            exact hchain.1
      · rw [toBlocks_cons_of_neg t x xs b bs h hst]
        refine ⟨?_, ?_⟩
        · intro c hc
          rcases List.mem_cons.mp hc with hc | hc
          · subst hc
            exact ⟨by simp, by intro y hy; simp at hy; subst hy; rfl⟩
          · exact hmem c hc
        · rw [List.chain'_cons]
          refine ⟨?_, hchain⟩
          have hhd : headSt t [x] = isSilent t x := rfl
          rw [hhd]
          exact hst

theorem uniform_tail (t : ℤ) (x x' : Sample) (b : List Sample)
    (h : Uniform t (x :: x' :: b)) : Uniform t (x' :: b) := by
  intro y hy
  have h1 : isSilent t y = headSt t (x :: x' :: b) := h y (by simp [List.mem_cons.mp hy])
  have h2 : isSilent t x' = headSt t (x :: x' :: b) := h x' (by simp)
  have hhd : headSt t (x' :: b) = isSilent t x' := rfl
  rw [h1, hhd, h2]

theorem toBlocks_append (t : ℤ) :
    ∀ b : List Sample, b ≠ [] → Uniform t b →
      ∀ r : List Sample,
        (∀ c, r.head? = some c → isSilent t c ≠ headSt t b) →
        toBlocks t (b ++ r) = b :: toBlocks t r := by
  intro b
  induction b with
  | nil => intro h; exact absurd rfl h
  | cons x b' ih =>
    intro _ huni r hr
    cases b' with
    | nil =>
      cases r with
      | nil => exact toBlocks_cons_of_nil t x [] rfl
      | cons y ys =>
        obtain ⟨c, cs, hc⟩ := toBlocks_head t y ys
        have hsty : headSt t (y :: c) = isSilent t y := rfl
        have hne : ¬ isSilent t x = headSt t (y :: c) := by
          rw [hsty]
          intro heq
          exact hr y rfl (by
            have : headSt t [x] = isSilent t x := rfl
            rw [this, ← heq])
        rw [show ([x] ++ y :: ys : List Sample) = x :: y :: ys from rfl]
        rw [toBlocks_cons_of_neg t x (y :: ys) (y :: c) cs hc hne, hc]
    | cons x' b'' =>
      have hx' : isSilent t x' = headSt t (x :: x' :: b'') := huni x' (by simp)
      have hx : headSt t (x :: x' :: b'') = isSilent t x := rfl
      have huni' : Uniform t (x' :: b'') := uniform_tail t x x' b'' huni
      have hhd' : headSt t (x' :: b'') = isSilent t x' := rfl
      have hr' : ∀ c, r.head? = some c → isSilent t c ≠ headSt t (x' :: b'') := by
        intro c hc
        rw [hhd', hx', hx]
        have := hr c hc
        rwa [hx] at this
      have hstep := ih (by simp) huni' r hr'
      rw [show ((x :: x' :: b'') ++ r : List Sample) = x :: ((x' :: b'') ++ r)
        from rfl]
      rw [toBlocks_cons_of_pos t x ((x' :: b'') ++ r) (x' :: b'')
        (toBlocks t r) hstep (by rw [hhd', hx', hx])]

theorem altBlocks_tail (t : ℤ) (b : List Sample) (bs : List (List Sample))
    (h : AltBlocks t (b :: bs)) : AltBlocks t bs := by
  obtain ⟨hmem, hchain⟩ := h
  exact ⟨fun c hc => hmem c (by simp [hc]), hchain.tail⟩

theorem toBlocks_of_alt (t : ℤ) :
    ∀ bs : List (List Sample), AltBlocks t bs → toBlocks t bs.flatten = bs := by
  intro bs
  induction bs with
  | nil => intro _; rfl
  | cons b rest ih =>
    intro halt
    obtain ⟨hmem, hchain⟩ := halt
    have hb := hmem b (by simp)
    have hflat : (b :: rest).flatten = b ++ rest.flatten := by simp
    rw [hflat]
    rw [toBlocks_append t b hb.1 hb.2 rest.flatten ?_]
    · rw [ih (altBlocks_tail t b rest ⟨hmem, hchain⟩)]
    · intro c hc heq
      cases rest with
      | nil => simp at hc
      | cons c₀ cs =>
        have hc₀ := hmem c₀ (by simp)
        cases c₀ with
        | nil => exact absurd rfl hc₀.1
        | cons y ys =>
          have : ((y :: ys) :: cs).flatten.head? = some y := by
            simp
          rw [show ((y :: ys) :: cs : List (List Sample)).flatten
              = (y :: ys) ++ cs.flatten from by simp] at hc
          rw [head?_append_left (y :: ys) cs.flatten (by simp)] at hc
          simp at hc
          subst hc
          rw [List.chain'_cons] at hchain
          exact hchain.1 heq.symm

theorem blockRanges_pos_le (t : ℤ) :
    ∀ (bs : List (List Sample)) (pos : Nat) (r : Nat × Nat),
      r ∈ blockRanges t bs pos → pos ≤ r.1 ∧ r.1 ≤ r.2 := by
  intro bs
  induction bs with
  | nil => intro pos r h; simp [blockRanges] at h
  | cons b rest ih =>
    intro pos r h
    rw [blockRanges] at h
    by_cases hs : b.all (isSilent t) = true
    · rw [if_pos hs] at h
      rcases List.mem_cons.mp h with h | h
      · subst h; simp
      · have := ih (pos + b.length) r h
        omega
    · rw [if_neg hs] at h
      have := ih (pos + b.length) r h
      omega

theorem rebuild_skip (audio : List Sample) (cap : Nat) :
    ∀ (rs : List (Nat × Nat)) (pos L : Nat) (b : List Sample),
      (∀ r ∈ rs, pos + L ≤ r.1) →
      audio.drop pos = b ++ audio.drop (pos + L) →
      b.length = L →
      rebuild audio cap rs pos = b ++ rebuild audio cap rs (pos + L) := by
  intro rs pos L b hge hdrop hlen
  cases rs with
  | nil =>
    rw [rebuild, rebuild]
    exact hdrop
  | cons r rs' =>
    obtain ⟨s, e⟩ := r
    have hs : pos + L ≤ s := hge (s, e) (by simp)
    have hble : b.length ≤ s - pos := by omega
    have harith : s - pos - b.length = s - (pos + L) := by omega
    have key : (audio.drop pos).take (s - pos)
        = b ++ (audio.drop (pos + L)).take (s - (pos + L)) := by
      rw [hdrop, List.take_append_eq_append_take,
        List.take_of_length_le hble, harith]
    rw [rebuild, rebuild, key]
    simp [List.append_assoc]

theorem rebuild_blocks (audio : List Sample) (cap minLen : Nat) (t : ℤ) :
    ∀ (bs : List (List Sample)) (pos : Nat),
      (∀ b ∈ bs, b ≠ [] ∧ Uniform t b) →
      audio.drop pos = bs.flatten →
      rebuild audio cap
        ((blockRanges t bs pos).filter (fun r => minLen ≤ r.2 - r.1)) pos
        = (bs.map (truncBlock cap minLen t)).flatten := by
  intro bs
  induction bs with
  | nil =>
    intro pos _ hdrop
    rw [blockRanges]
    simp only [List.filter_nil, rebuild]
    rw [hdrop]
    simp
  | cons b rest ih =>
    intro pos hmem hdrop
    have hbmem := hmem b (by simp)
    have hfl : (b :: rest).flatten = b ++ rest.flatten := by simp
    rw [hfl] at hdrop
    have hdrop' : audio.drop (pos + b.length) = rest.flatten := by
      rw [← List.drop_drop, hdrop, List.drop_left]
    have hskipargs : audio.drop pos = b ++ audio.drop (pos + b.length) := by
      rw [hdrop, hdrop']
    have hrest := ih (pos + b.length) (fun c hc => hmem c (by simp [hc])) hdrop'
    have hge : ∀ r ∈ (blockRanges t rest (pos + b.length)).filter
        (fun r => minLen ≤ r.2 - r.1), pos + b.length ≤ r.1 := by
      intro r hr
      exact (blockRanges_pos_le t rest (pos + b.length) r
        (List.mem_of_mem_filter hr)).1
    have hmapfl : ((b :: rest).map (truncBlock cap minLen t)).flatten
        = truncBlock cap minLen t b ++ (rest.map (truncBlock cap minLen t)).flatten := by
      simp
    rw [hmapfl]
    rw [blockRanges]
    by_cases hs : b.all (isSilent t) = true
    · rw [if_pos hs]
      by_cases hlen : minLen ≤ b.length
      · have hfilter : ((pos, pos + b.length) :: blockRanges t rest (pos + b.length)).filter
            (fun r => minLen ≤ r.2 - r.1)
            = (pos, pos + b.length) ::
              (blockRanges t rest (pos + b.length)).filter
                (fun r => minLen ≤ r.2 - r.1) := by
          rw [List.filter_cons]
          simp only [decide_eq_true_eq]
          rw [if_pos (by omega : minLen ≤ pos + b.length - pos)]
        rw [hfilter, rebuild]
        simp only [Nat.sub_self, List.take_zero, List.nil_append]
        have hm : (if cap < pos + b.length - pos then
              List.replicate cap (⊥ : Sample)
            else (audio.drop pos).take (pos + b.length - pos))
            = truncBlock cap minLen t b := by
          have harith : pos + b.length - pos = b.length := by omega
          rw [harith]
          unfold truncBlock
          by_cases hcap : cap < b.length
          · rw [if_pos hcap, if_pos ⟨hs, hlen, hcap⟩]
          · rw [if_neg hcap, if_neg (by tauto)]
            rw [hdrop, List.take_left]
        rw [hm, hrest]
      · have hfilter : ((pos, pos + b.length) :: blockRanges t rest (pos + b.length)).filter
            (fun r => minLen ≤ r.2 - r.1)
            = (blockRanges t rest (pos + b.length)).filter
                (fun r => minLen ≤ r.2 - r.1) := by
          rw [List.filter_cons]
          simp only [decide_eq_true_eq]
          rw [if_neg (by omega : ¬ minLen ≤ pos + b.length - pos)]
        rw [hfilter]
        rw [rebuild_skip audio cap _ pos b.length b hge hskipargs rfl, hrest]
        have htr : truncBlock cap minLen t b = b := by
          unfold truncBlock
          rw [if_neg (by tauto)]
        rw [htr]
    · rw [if_neg hs]
      rw [rebuild_skip audio cap _ pos b.length b hge hskipargs rfl, hrest]
      have htr : truncBlock cap minLen t b = b := by
        unfold truncBlock
        rw [if_neg (by tauto)]
      rw [htr]

theorem blockRanges_silent_mem (t : ℤ) :
    ∀ (bs : List (List Sample)) (pos : Nat) (b : List Sample),
      b ∈ bs → b.all (isSilent t) = true →
      ∃ r ∈ blockRanges t bs pos, r.2 - r.1 = b.length := by
  intro bs
  induction bs with
  | nil => intro pos b h; simp at h
  | cons c rest ih =>
    intro pos b hmem hsil
    rw [blockRanges]
    rcases List.mem_cons.mp hmem with h | h
    · subst h
      rw [if_pos hsil]
      exact ⟨(pos, pos + b.length), by simp, by simp⟩
    · by_cases hc : c.all (isSilent t) = true
      · rw [if_pos hc]
        obtain ⟨r, hr, hlen⟩ := ih (pos + c.length) b h hsil
        exact ⟨r, by simp [hr], hlen⟩
      · rw [if_neg hc]
        exact ih (pos + c.length) b h hsil

theorem map_eq_self_of_forall {α : Type} (f : α → α) :
    ∀ l : List α, (∀ x ∈ l, f x = x) → l.map f = l := by
  intro l
  induction l with
  | nil => intro _; rfl
  | cons a rest ih =>
    intro h
    rw [List.map_cons, h a (by simp), ih (fun x hx => h x (by simp [hx]))]

theorem smart_shorten_eq_blocks (audio : List Sample)
    (cap minLen : Nat) (t : ℤ) :
    smart_shorten_silence audio cap minLen t
      = ((toBlocks t audio).map (truncBlock cap minLen t)).flatten := by
  unfold smart_shorten_silence detect_silence
  by_cases hemp : ((blockRanges t (toBlocks t audio) 0).filter
      (fun r => minLen ≤ r.2 - r.1)).isEmpty
  · rw [if_pos hemp]
    have hid : ∀ b ∈ toBlocks t audio, truncBlock cap minLen t b = b := by
      intro b hb
      by_cases hsil : b.all (isSilent t) = true
      · by_cases hlen : minLen ≤ b.length
        · exfalso
          obtain ⟨r, hr, hrlen⟩ := blockRanges_silent_mem t
            (toBlocks t audio) 0 b hb hsil
          have hrf : r ∈ (blockRanges t (toBlocks t audio) 0).filter
              (fun r => minLen ≤ r.2 - r.1) := by
            rw [List.mem_filter]
            exact ⟨hr, by simp [hrlen, hlen]⟩
          rw [List.isEmpty_iff] at hemp
          rw [hemp] at hrf
          simp at hrf
        · unfold truncBlock
          rw [if_neg (by tauto)]
      · unfold truncBlock
        rw [if_neg (by tauto)]
    rw [map_eq_self_of_forall _ _ hid, toBlocks_flatten]
  · rw [if_neg hemp]
    exact rebuild_blocks audio cap minLen t (toBlocks t audio) 0
      (fun b hb => ((toBlocks_alt t audio).1 b hb))
      (by simpa using (toBlocks_flatten t audio).symm)

theorem head?_headI {l : List Sample} (h : l ≠ []) : l.head? = some l.headI := by
  cases l with
  | nil => exact absurd rfl h
  | cons x xs => rfl

theorem headI_mem {l : List Sample} (h : l ≠ []) : l.headI ∈ l := by
  cases l with
  | nil => exact absurd rfl h
  | cons x xs => simp [List.headI]

theorem uniform_of_const (t : ℤ) (st : Bool) (p : List Sample)
    (h : ∀ x ∈ p, isSilent t x = st) (hne : p ≠ []) :
    Uniform t p ∧ headSt t p = st := by
  cases p with
  | nil => exact absurd rfl hne
  | cons y ys =>
    have hy : isSilent t y = st := h y (by simp)
    have hhd : headSt t (y :: ys) = isSilent t y := rfl
    refine ⟨?_, by rw [hhd, hy]⟩
    intro x hx
    rw [hhd, hy, h x hx]

theorem silent_all_iff (t : ℤ) (b : List Sample) :
    b.all (isSilent t) = true ↔ ∀ x ∈ b, isSilent t x = true := by
  simp [List.all_eq_true]

theorem not_all_silent (t : ℤ) (p : List Sample) (hne : p ≠ [])
    (h : ∀ x ∈ p, isSilent t x = false) : ¬ p.all (isSilent t) = true := by
  intro hall
  cases p with
  | nil => exact absurd rfl hne
  | cons y ys =>
    have h1 := (silent_all_iff t (y :: ys)).mp hall y (by simp)
    have h2 := h y (by simp)
    rw [h1] at h2
    cases h2

theorem truncBlock_silent_bound (cap minLen : Nat) (t : ℤ)
    (b : List Sample) (hsil : b.all (isSilent t) = true) :
    (truncBlock cap minLen t b).all (isSilent t) = true ∧
    ((truncBlock cap minLen t b).length < minLen ∨
      (truncBlock cap minLen t b).length ≤ cap) := by
  unfold truncBlock
  by_cases hc : b.all (isSilent t) = true ∧ minLen ≤ b.length ∧ cap < b.length
  · rw [if_pos hc]
    refine ⟨?_, Or.inr (by simp)⟩
    rw [silent_all_iff]
    intro x hx
    rw [List.eq_of_mem_replicate hx]
    exact isSilent_bot t
  · rw [if_neg hc]
    refine ⟨hsil, ?_⟩
    by_cases h1 : minLen ≤ b.length
    · by_cases h2 : cap < b.length
      · exact absurd ⟨hsil, h1, h2⟩ hc
      · omega
    · omega

theorem truncBlock_nonsilent_id (cap minLen : Nat) (t : ℤ)
    (b : List Sample) (hb : ¬ b.all (isSilent t) = true) :
    truncBlock cap minLen t b = b := by
  unfold truncBlock
  rw [if_neg (by tauto)]

theorem trunc_silent_blocks_bounded (cap minLen : Nat) (t : ℤ) :
    ∀ bs : List (List Sample), AltBlocks t bs →
      ∀ p : List Sample, (∀ x ∈ p, isSilent t x = false) →
      ∀ b ∈ toBlocks t (p ++ (bs.map (truncBlock cap minLen t)).flatten),
        b.all (isSilent t) = true → (b.length < minLen ∨ b.length ≤ cap) := by
  intro bs
  induction bs with
  | nil =>
    intro _ p hp b hb hsil
    simp only [List.map_nil, List.flatten_nil, List.append_nil] at hb
    cases hpn : p with
    | nil =>
      subst hpn
      simp [toBlocks_nil] at hb
    | cons y ys =>
      subst hpn
      obtain ⟨huni, _⟩ := uniform_of_const t false (y :: ys) hp (by simp)
      have heq : toBlocks t ((y :: ys) ++ ([] : List Sample))
          = (y :: ys) :: toBlocks t [] :=
        toBlocks_append t (y :: ys) (by simp) huni [] (by simp)
      rw [List.append_nil] at heq
      rw [heq, toBlocks_nil] at hb
      simp at hb
      subst hb
      exact absurd hsil (not_all_silent t (y :: ys) (by simp) hp)
  | cons b₀ rest ih =>
    intro halt p hp b hb hsil
    have hb₀ := halt.1 b₀ (by simp)
    have htail := altBlocks_tail t b₀ rest halt
    by_cases hst : headSt t b₀ = false
    · have hall0 : ∀ x ∈ b₀, isSilent t x = false := by
        intro x hx
        rw [hb₀.2 x hx, hst]
      have hid : truncBlock cap minLen t b₀ = b₀ :=
        truncBlock_nonsilent_id cap minLen t b₀
          (not_all_silent t b₀ hb₀.1 hall0)
      have hfl : ((b₀ :: rest).map (truncBlock cap minLen t)).flatten
          = b₀ ++ (rest.map (truncBlock cap minLen t)).flatten := by
        simp [hid]
      rw [hfl, ← List.append_assoc] at hb
      refine ih htail (p ++ b₀) ?_ b hb hsil
      intro x hx
      rcases List.mem_append.mp hx with h | h
      · exact hp x h
      · exact hall0 x h
    · have hsttrue : headSt t b₀ = true := by
        cases h : headSt t b₀
        · exact absurd h hst
        · rfl
      have hall0 : b₀.all (isSilent t) = true := by
        rw [silent_all_iff]
        intro x hx
        rw [hb₀.2 x hx, hsttrue]
      obtain ⟨hcsil, hcbound⟩ := truncBlock_silent_bound cap minLen t b₀ hall0
      have hfl : ((b₀ :: rest).map (truncBlock cap minLen t)).flatten
          = truncBlock cap minLen t b₀
              ++ (rest.map (truncBlock cap minLen t)).flatten := by
        simp
      rw [hfl] at hb
      by_cases hcnil : truncBlock cap minLen t b₀ = []
      · rw [hcnil, List.nil_append] at hb
        exact ih htail p hp b hb hsil
      · have hcall : ∀ x ∈ truncBlock cap minLen t b₀, isSilent t x = true :=
          (silent_all_iff t _).mp hcsil
        obtain ⟨hcuni, hchd⟩ := uniform_of_const t true _ hcall hcnil
        cases hrest : rest with
        | nil =>
          subst hrest
          simp only [List.map_nil, List.flatten_nil, List.append_nil] at hb
          cases hpn : p with
          | nil =>
            subst hpn
            rw [List.nil_append] at hb
            have heq : toBlocks t (truncBlock cap minLen t b₀ ++ ([] : List Sample))
                = truncBlock cap minLen t b₀ :: toBlocks t [] :=
              toBlocks_append t _ hcnil hcuni [] (by simp)
            rw [List.append_nil] at heq
            rw [heq, toBlocks_nil] at hb
            simp at hb
            subst hb
            exact hcbound
          | cons y ys =>
            subst hpn
            obtain ⟨hpuni, hphd⟩ := uniform_of_const t false (y :: ys) hp (by simp)
            have heq : toBlocks t ((y :: ys) ++ truncBlock cap minLen t b₀)
                = (y :: ys) :: toBlocks t (truncBlock cap minLen t b₀) := by
              apply toBlocks_append t (y :: ys) (by simp) hpuni
              intro ch hch
              rw [head?_headI hcnil] at hch
              injection hch with hch
              subst hch
              rw [hphd, hcall _ (headI_mem hcnil)]
              simp
            have heq2 : toBlocks t (truncBlock cap minLen t b₀ ++ ([] : List Sample))
                = truncBlock cap minLen t b₀ :: toBlocks t [] :=
              toBlocks_append t _ hcnil hcuni [] (by simp)
            rw [List.append_nil] at heq2
            rw [heq, heq2, toBlocks_nil] at hb
            simp at hb
            rcases hb with hb | hb
            · subst hb
              exact absurd hsil (not_all_silent t (y :: ys) (by simp) hp)
            · subst hb
              exact hcbound
        | cons r₁ rest' =>
          subst hrest
          have hr₁ := halt.1 r₁ (by simp)
          have hr₁st : headSt t r₁ = false := by
            have hchain := halt.2
            rw [List.chain'_cons] at hchain
            cases h : headSt t r₁
            · rfl
            · exact absurd (by rw [hsttrue, h]) hchain.1
          have hr₁all : ∀ x ∈ r₁, isSilent t x = false := by
            intro x hx
            rw [hr₁.2 x hx, hr₁st]
          have hr₁id : truncBlock cap minLen t r₁ = r₁ :=
            truncBlock_nonsilent_id cap minLen t r₁
              (not_all_silent t r₁ hr₁.1 hr₁all)
          have hIH := ih htail [] (by simp)
          rw [List.nil_append] at hIH
          have hXhead : ∀ ch,
              (((r₁ :: rest').map (truncBlock cap minLen t)).flatten).head?
                = some ch → isSilent t ch = false := by
            intro ch hch
            have hXfl : ((r₁ :: rest').map (truncBlock cap minLen t)).flatten
                = r₁ ++ (rest'.map (truncBlock cap minLen t)).flatten := by
              simp [hr₁id]
            rw [hXfl, head?_append_left r₁ _ hr₁.1, head?_headI hr₁.1] at hch
            injection hch with hch
            subst hch
            exact hr₁all _ (headI_mem hr₁.1)
          have heqc : toBlocks t (truncBlock cap minLen t b₀
                ++ ((r₁ :: rest').map (truncBlock cap minLen t)).flatten)
              = truncBlock cap minLen t b₀
                :: toBlocks t (((r₁ :: rest').map (truncBlock cap minLen t)).flatten) := by
            apply toBlocks_append t _ hcnil hcuni
            intro ch hch
            rw [hchd, hXhead ch hch]
            simp
          cases hpn : p with
          | nil =>
            subst hpn
            rw [List.nil_append, heqc] at hb
            rcases List.mem_cons.mp hb with hb | hb
            · subst hb
              exact hcbound
            · exact hIH b hb hsil
          | cons y ys =>
            subst hpn
            obtain ⟨hpuni, hphd⟩ := uniform_of_const t false (y :: ys) hp (by simp)
            have heqp : toBlocks t ((y :: ys) ++ (truncBlock cap minLen t b₀
                  ++ ((r₁ :: rest').map (truncBlock cap minLen t)).flatten))
                = (y :: ys) :: toBlocks t (truncBlock cap minLen t b₀
                  ++ ((r₁ :: rest').map (truncBlock cap minLen t)).flatten) := by
              apply toBlocks_append t (y :: ys) (by simp) hpuni
              intro ch hch
              rw [head?_append_left _ _ hcnil, head?_headI hcnil] at hch
              injection hch with hch
              subst hch
              rw [hphd, hcall _ (headI_mem hcnil)]
              simp
            rw [heqp, heqc] at hb
            rcases List.mem_cons.mp hb with hb | hb
            · subst hb
              exact absurd hsil (not_all_silent t (y :: ys) (by simp) hp)
            · rcases List.mem_cons.mp hb with hb | hb
              · subst hb
                exact hcbound
              · exact hIH b hb hsil

/-- C5: `smart_shorten_silence` is idempotent — run a second time with the
same maximum allowed silence, minimum silence length and silence threshold on
its own output, it returns that output unchanged: the first pass truncated
every over-cap silence interval to exactly the cap and preserved every other
interval and all non-silent audio verbatim and in order, so the second pass
finds nothing above the cap to shorten. -/
theorem smart_shorten_silence_idempotent (audio : List Sample)
    (max_allowed_silence_ms min_silence_len : Nat) (silence_thresh : ℤ) :
    smart_shorten_silence
        (smart_shorten_silence audio max_allowed_silence_ms min_silence_len
          silence_thresh)
        max_allowed_silence_ms min_silence_len silence_thresh
      = smart_shorten_silence audio max_allowed_silence_ms min_silence_len
          silence_thresh := by
  have h1 := smart_shorten_eq_blocks audio max_allowed_silence_ms
    min_silence_len silence_thresh
  have h2 := smart_shorten_eq_blocks
    (smart_shorten_silence audio max_allowed_silence_ms min_silence_len
      silence_thresh)
    max_allowed_silence_ms min_silence_len silence_thresh
  have hbdd : ∀ b ∈ toBlocks silence_thresh
      (smart_shorten_silence audio max_allowed_silence_ms min_silence_len
        silence_thresh),
      b.all (isSilent silence_thresh) = true →
        (b.length < min_silence_len ∨ b.length ≤ max_allowed_silence_ms) := by
    intro b hb hsil
    refine trunc_silent_blocks_bounded max_allowed_silence_ms min_silence_len
      silence_thresh (toBlocks silence_thresh audio)
      (toBlocks_alt silence_thresh audio) [] (by simp) b ?_ hsil
    rw [List.nil_append, ← h1]
    exact hb
  have hid : ∀ b ∈ toBlocks silence_thresh
      (smart_shorten_silence audio max_allowed_silence_ms min_silence_len
        silence_thresh),
      truncBlock max_allowed_silence_ms min_silence_len silence_thresh b = b := by
    intro b hb
    by_cases hsil : b.all (isSilent silence_thresh) = true
    · have hbound := hbdd b hb hsil
      unfold truncBlock
      rw [if_neg ?_]
      rintro ⟨_, hminl, hcapl⟩
      omega
    · exact truncBlock_nonsilent_id _ _ _ b hsil
  rw [h2, map_eq_self_of_forall _ _ hid, toBlocks_flatten]

end App
